import Mathlib

/-!
Verification of the subtitle track composition planner of
`download_sync_and_embed.py`.

The planner logic lives in `embed_subtitles_into_video` (and its probe
helper `get_embedded_subtitles`).  We give a shallow embedding of that
code: pure Python data is translated to Lean structures, the `for` loops
building `all_subs` become structural recursions, the `all_subs.sort(key=
sort_key)` call (Python's stable sort by key) becomes a stable sort by
the same key, and the `try/except` structure of the probe helper becomes
an `Except` value over an abstract probe outcome.
-/

namespace Subtitles

/-- Python's `str.lower()` for the ASCII strings handled here (ISO
language codes and filename suffixes): character-wise ASCII lowering.
(`String.toLower` computes the same characters but is defined by
well-founded recursion over byte positions; this structural version
keeps the embedding executable.) -/
def pyLower (s : String) : String := ⟨s.data.map Char.toLower⟩

/-- One element of the list returned by `get_embedded_subtitles`
(`download_sync_and_embed.py`, lines 139-146): the dict
`{"index": stream.get("index"), "stream_index": i,
"language": stream.get("tags", {}).get("language", "und")}`. -/
structure EmbeddedSub where
  index : Option Nat
  streamIdx : Nat
  language : String
deriving DecidableEq, Repr

/-- One raw stream object of the JSON that `ffprobe` prints: an optional
`index` field and an optional `tags.language` field. -/
structure RawStream where
  index : Option Nat
  languageTag : Option String
deriving DecidableEq, Repr

/-- Exceptions that can escape the Python code modelled here. -/
inductive PyError where
  | calledProcessError
  | osError
  | jsonDecodeError
deriving DecidableEq, Repr

/-- Outcome of the `subprocess.run(["ffprobe", ...], check=True)` call in
`get_embedded_subtitles` (lines 129-137): the process may fail to start
(`OSError` / `FileNotFoundError`), exit non-zero (`CalledProcessError`
because of `check=True`), print stdout that `json.loads` rejects, or
print a JSON object whose `"streams"` entry parses to a list. -/
inductive ProbeOutcome where
  | startFailure
  | nonzeroExit
  | malformedOutput
  | streams (raw : List RawStream)
deriving DecidableEq, Repr

/-- The list comprehension of `get_embedded_subtitles` (lines 139-146):
`for i, stream in enumerate(data.get("streams", []))` producing
`stream_index = i` and `language = tags.get("language", "und")`. -/
def readStreams : Nat → List RawStream → List EmbeddedSub
  | _, [] => []
  | i, s :: rest => ⟨s.index, i, s.languageTag.getD "und"⟩ :: readStreams (i + 1) rest

/-- Model of `get_embedded_subtitles` (lines 126-148).  The `try` block wraps the
probe call, `json.loads`, and the comprehension; the single `except`
clause catches only `subprocess.CalledProcessError` and returns `[]`.
A start failure or a `json.JSONDecodeError` is not caught and
propagates to the caller. -/
def get_embedded_subtitles (probe : ProbeOutcome) : Except PyError (List EmbeddedSub) :=
  match probe with
  | .startFailure => .error .osError
  | .nonzeroExit => .ok []
  | .malformedOutput => .error .jsonDecodeError
  | .streams raw => .ok (readStreams 0 raw)

/-- A subtitle file passed to `embed_subtitles_into_video` in the
`subtitle_files` dict: its path together with the result of the
`sub_path.exists()` check of line 345. -/
structure SubFile where
  path : String
  onDisk : Bool
deriving DecidableEq, Repr

/-- The `subtitle_files` dict: Python dicts iterate in insertion order,
so we model the dict as its association list. -/
abbrev SubFiles := List (String × SubFile)

/-- The keys of the `subtitle_files` dict, as used by the membership
test `lang not in subtitle_files` on line 360. -/
def fileKeys (files : SubFiles) : List String := files.map Prod.fst

/-- The `sub_inputs` list (lines 343-347): the `(lang_code, sub_path)`
pairs of `subtitle_files` whose path exists, in dict order. -/
def subInputs (files : SubFiles) : SubFiles := files.filter (fun f => f.2.onDisk)

/-- One element of the `all_subs` list (line 352-365): the tuple
`(input_idx, stream_idx, lang, is_new)`. -/
structure SubEntry where
  inputIdx : Nat
  streamIdx : Nat
  lang : String
  isNew : Bool
deriving DecidableEq, Repr

/-- The loop of lines 357-361: for each existing embedded stream, lower
its language and keep it (as `(0, stream_index, lang, False)`) only when
that language is not a key of `subtitle_files`. -/
def existingEntries (keys : List String) : List EmbeddedSub → List SubEntry
  | [] => []
  | s :: rest =>
    if (pyLower s.language) ∈ keys then existingEntries keys rest
    else ⟨0, s.streamIdx, (pyLower s.language), false⟩ :: existingEntries keys rest

/-- The loop of lines 364-365: `for i, (lang_code, _) in
enumerate(sub_inputs): all_subs.append((i + 1, 0, lang_code, True))`. -/
def newEntries : Nat → SubFiles → List SubEntry
  | _, [] => []
  | i, f :: rest => ⟨i + 1, 0, f.1, true⟩ :: newEntries (i + 1) rest

/-- The full `all_subs` list before sorting: filtered existing streams in
container order, then the new sources in dict order. -/
def allSubs (existing : List EmbeddedSub) (files : SubFiles) : List SubEntry :=
  existingEntries (fileKeys files) existing ++ newEntries 0 (subInputs files)

/-- The `sort_key` function of lines 368-373: `(0, input_idx, stream_idx)`
for Spanish, `(1, input_idx, stream_idx)` otherwise. -/
def sortKey (e : SubEntry) : Nat × Nat × Nat :=
  (if e.lang = "spa" then 0 else 1, e.inputIdx, e.streamIdx)

/-- Lexicographic order on the 3-tuples produced by `sortKey`, exactly
Python's tuple comparison. -/
def keyLe (a b : Nat × Nat × Nat) : Prop :=
  a.1 < b.1 ∨ (a.1 = b.1 ∧ (a.2.1 < b.2.1 ∨ (a.2.1 = b.2.1 ∧ a.2.2 ≤ b.2.2)))

instance : DecidableRel keyLe := fun a b => by
  unfold keyLe; exact inferInstance

/-- The comparison realised by `all_subs.sort(key=sort_key)` (line 375). -/
def subLe (a b : SubEntry) : Prop := keyLe (sortKey a) (sortKey b)

instance : DecidableRel subLe := fun a b => by
  unfold subLe; exact inferInstance

/-- Line 375, `all_subs.sort(key=sort_key)`: Python's `list.sort` is a
stable sort by the key; we realise it as the (stable) insertion sort
with respect to `subLe`. -/
def sortedSubs (existing : List EmbeddedSub) (files : SubFiles) : List SubEntry :=
  (allSubs existing files).insertionSort subLe

/-- Lines 314-318: `spanish_is_first` — the list is non-empty and the
first stream's lowered language is `"spa"`. -/
def spanishIsFirst (existing : List EmbeddedSub) : Bool :=
  match existing with
  | [] => false
  | s :: _ => (pyLower s.language) = "spa"

/-- Lines 330-337: pick the codec for newly added subtitles from the
lowered container suffix. -/
def newSubCodec (suffix : String) : String :=
  if (pyLower suffix) = ".mp4" then "mov_text"
  else if (pyLower suffix) = ".mkv" then "srt"
  else "srt"

/-- Where an output subtitle slot is taken from: an existing embedded
stream (mapped as `0:s:{stream_idx}`, line 385) or a new external input
(mapped as `{input_idx}:0`, line 388). -/
inductive Origin where
  | Existing (streamIdx : Nat)
  | New (inputIdx : Nat)
deriving DecidableEq, Repr

/-- Codec decision for one output subtitle slot: `copy` (line 400) or an
encode to a named codec (line 397). -/
inductive CodecAction where
  | CopyAsIs
  | EncodeTo (codec : String)
deriving DecidableEq, Repr

/-- One output subtitle slot of the composition plan: its origin, the
language stamped by `-metadata:s:s:{out_idx} language={lang}` (line 402)
and its codec action. -/
structure Slot where
  origin : Origin
  lang : String
  codec : CodecAction
deriving DecidableEq, Repr

/-- The decisions of lines 382-402 for one `all_subs` entry: mapping by
`input_idx == 0`, codec by `is_new`, language stamped as carried. -/
def toSlot (codec : String) (e : SubEntry) : Slot :=
  { origin := if e.inputIdx = 0 then .Existing e.streamIdx else .New e.inputIdx
    lang := e.lang
    codec := if e.isNew then .EncodeTo codec else .CopyAsIs }

/-- The composition plan: `isNoOp = true` models the plain `shutil.copy2`
branches (lines 320-328 and 377-379), otherwise `slots` is the ordered
list of output subtitle slots of the built ffmpeg command. -/
structure CompositionPlan where
  isNoOp : Bool
  slots : List Slot
deriving DecidableEq, Repr

/-- The planning decisions of `embed_subtitles_into_video`
(lines 311-404), as a pure function of existing streams, the
`subtitle_files` dict and the container suffix:
line 320 (no subs at all → copy), line 325 (no new subs and Spanish
already first → copy), line 377 (empty candidate set → copy), and
otherwise the sorted slot list of the remux command. -/
def embedPlan (existing : List EmbeddedSub) (files : SubFiles) (suffix : String) :
    CompositionPlan :=
  if files.isEmpty && existing.isEmpty then { isNoOp := true, slots := [] }
  else if files.isEmpty && spanishIsFirst existing then { isNoOp := true, slots := [] }
  else if (sortedSubs existing files).isEmpty then { isNoOp := true, slots := [] }
  else { isNoOp := false, slots := (sortedSubs existing files).map (toSlot (newSubCodec suffix)) }

/-- The `["-i", str(sub_path)]` arguments of lines 343-347, one pair per
existing new-subtitle file. -/
def subInputArgs (files : SubFiles) : List String :=
  ((subInputs files).map (fun f => ["-i", f.2.path])).flatten

/-- The `-map` arguments of lines 382-388, one per sorted entry. -/
def mapArgs (sorted : List SubEntry) : List String :=
  (sorted.map (fun e =>
    if e.inputIdx = 0 then ["-map", "0:s:" ++ toString e.streamIdx]
    else ["-map", toString e.inputIdx ++ ":0"])).flatten

/-- The per-slot codec and metadata arguments of lines 393-402. -/
def codecMetadataArgs (codec : String) (sorted : List SubEntry) : List String :=
  (sorted.enum.map (fun p =>
    (if p.2.isNew then ["-c:s:" ++ toString p.1, codec]
     else ["-c:s:" ++ toString p.1, "copy"])
    ++ ["-metadata:s:s:" ++ toString p.1, "language=" ++ p.2.lang])).flatten

/-- The full ffmpeg command of lines 340-404 for the remux case. -/
def buildCmd (videoPath outputPath : String) (existing : List EmbeddedSub)
    (files : SubFiles) (suffix : String) : List String :=
  ["ffmpeg", "-y", "-i", videoPath]
  ++ subInputArgs files
  ++ ["-map", "0:v", "-map", "0:a?"]
  ++ mapArgs (sortedSubs existing files)
  ++ ["-c:v", "copy", "-c:a", "copy"]
  ++ codecMetadataArgs (newSubCodec suffix) (sortedSubs existing files)
  ++ [outputPath]

/-- Paths as component lists.  `main` (lines 549-550) moves the original
video into the `Originals` subfolder of the target directory before
processing. -/
def originalsPath (target : List String) (name : String) : List String :=
  target ++ ["Originals", name]

/-- Function `process_video` (lines 472, 489) writes the remux output to
`output_dir / video_path.name`, where `output_dir` is the target
directory itself (line 559). -/
def outputVideoPath (target : List String) (name : String) : List String :=
  target ++ [name]

/-- Strict order on the `(input_idx, stream_idx)` positions: the order in
which entries are appended to `all_subs`. -/
def posLt (a b : SubEntry) : Prop :=
  a.inputIdx < b.inputIdx ∨ (a.inputIdx = b.inputIdx ∧ a.streamIdx < b.streamIdx)

/-- Whether an entry carries the preferred language tag. -/
def isSpa (e : SubEntry) : Bool := e.lang = "spa"

/-- Whether a slot is fed from a new external subtitle input. -/
def isNewOrigin (s : Slot) : Bool :=
  match s.origin with
  | .New _ => true
  | .Existing _ => false

theorem keyLe_trans {a b c : Nat × Nat × Nat} (h₁ : keyLe a b) (h₂ : keyLe b c) : keyLe a c := by
  obtain ⟨a1, a2, a3⟩ := a
  obtain ⟨b1, b2, b3⟩ := b
  obtain ⟨c1, c2, c3⟩ := c
  simp only [keyLe] at *
  omega

theorem keyLe_total (a b : Nat × Nat × Nat) : keyLe a b ∨ keyLe b a := by
  obtain ⟨a1, a2, a3⟩ := a
  obtain ⟨b1, b2, b3⟩ := b
  simp only [keyLe]
  omega

theorem keyLe_antisymm {a b : Nat × Nat × Nat} (h₁ : keyLe a b) (h₂ : keyLe b a) : a = b := by
  obtain ⟨a1, a2, a3⟩ := a
  obtain ⟨b1, b2, b3⟩ := b
  simp only [keyLe] at *
  simp only [Prod.mk.injEq]
  omega

instance : IsTrans SubEntry subLe := ⟨fun _ _ _ => keyLe_trans⟩

instance : IsTotal SubEntry subLe := ⟨fun a b => keyLe_total (sortKey a) (sortKey b)⟩

theorem sorted_sortedSubs (existing : List EmbeddedSub) (files : SubFiles) :
    List.Sorted subLe (sortedSubs existing files) :=
  List.sorted_insertionSort subLe (allSubs existing files)

theorem perm_sortedSubs (existing : List EmbeddedSub) (files : SubFiles) :
    (sortedSubs existing files).Perm (allSubs existing files) :=
  List.perm_insertionSort subLe (allSubs existing files)

theorem mem_existingEntries {keys : List String} {l : List EmbeddedSub} {x : SubEntry}
    (hx : x ∈ existingEntries keys l) :
    ∃ s ∈ l, pyLower s.language ∉ keys ∧ x = ⟨0, s.streamIdx, pyLower s.language, false⟩ := by
  induction l with
  | nil => simp [existingEntries] at hx
  | cons s rest ih =>
    by_cases h : pyLower s.language ∈ keys
    · rw [existingEntries, if_pos h] at hx
      obtain ⟨t, ht, h2⟩ := ih hx
      exact ⟨t, List.mem_cons_of_mem _ ht, h2⟩
    · rw [existingEntries, if_neg h] at hx
      rcases List.mem_cons.1 hx with h1 | h1
      · exact ⟨s, List.mem_cons_self _ _, h, h1⟩
      · obtain ⟨t, ht, h2⟩ := ih h1
        exact ⟨t, List.mem_cons_of_mem _ ht, h2⟩

theorem existingEntries_mem {keys : List String} {l : List EmbeddedSub} {s : EmbeddedSub}
    (hs : s ∈ l) (hk : pyLower s.language ∉ keys) :
    (⟨0, s.streamIdx, pyLower s.language, false⟩ : SubEntry) ∈ existingEntries keys l := by
  induction l with
  | nil => cases hs
  | cons t rest ih =>
    rcases List.mem_cons.1 hs with h1 | h1
    · subst h1
      rw [existingEntries, if_neg hk]
      exact List.mem_cons_self _ _
    · by_cases h : pyLower t.language ∈ keys
      · rw [existingEntries, if_pos h]
        exact ih h1
      · rw [existingEntries, if_neg h]
        exact List.mem_cons_of_mem _ (ih h1)

theorem mem_newEntries : ∀ {i : Nat} {l : SubFiles} {x : SubEntry}, x ∈ newEntries i l →
    x.isNew = true ∧ x.streamIdx = 0 ∧ i < x.inputIdx ∧ x.lang ∈ l.map Prod.fst := by
  intro i l
  induction l generalizing i with
  | nil => intro x hx; simp [newEntries] at hx
  | cons f rest ih =>
    intro x hx
    rw [newEntries] at hx
    rcases List.mem_cons.1 hx with h1 | h1
    · subst h1
      refine ⟨rfl, rfl, Nat.lt_succ_self i, ?_⟩
      simp
    · obtain ⟨h2, h3, h4, h5⟩ := ih h1
      exact ⟨h2, h3, by omega, by simp [h5]⟩

theorem newEntries_exists_lang {L : String} : ∀ {i : Nat} {l : SubFiles},
    L ∈ l.map Prod.fst → ∃ x ∈ newEntries i l, x.lang = L := by
  intro i l
  induction l generalizing i with
  | nil => intro h; simp at h
  | cons f rest ih =>
    intro h
    rcases List.mem_cons.1 h with h1 | h1
    · exact ⟨⟨i + 1, 0, f.1, true⟩, by rw [newEntries]; exact List.mem_cons_self _ _, h1.symm⟩
    · obtain ⟨x, hx, hL⟩ := ih h1
      exact ⟨x, by rw [newEntries]; exact List.mem_cons_of_mem _ hx, hL⟩

theorem pairwise_existingEntries {keys : List String} {l : List EmbeddedSub}
    (h : l.Pairwise (fun a b => a.streamIdx < b.streamIdx)) :
    (existingEntries keys l).Pairwise posLt := by
  induction l with
  | nil => exact List.Pairwise.nil
  | cons s rest ih =>
    rw [List.pairwise_cons] at h
    by_cases hk : pyLower s.language ∈ keys
    · rw [existingEntries, if_pos hk]
      exact ih h.2
    · rw [existingEntries, if_neg hk]
      refine List.Pairwise.cons ?_ (ih h.2)
      intro y hy
      obtain ⟨t, ht, _, rfl⟩ := mem_existingEntries hy
      exact Or.inr ⟨rfl, h.1 t ht⟩

theorem pairwise_newEntries : ∀ (i : Nat) (l : SubFiles), (newEntries i l).Pairwise posLt := by
  intro i l
  induction l generalizing i with
  | nil => exact List.Pairwise.nil
  | cons f rest ih =>
    rw [newEntries]
    refine List.Pairwise.cons ?_ (ih (i + 1))
    intro y hy
    obtain ⟨_, _, h4, _⟩ := mem_newEntries hy
    exact Or.inl h4

theorem pairwise_allSubs {existing : List EmbeddedSub} {files : SubFiles}
    (hinv : existing.Pairwise (fun a b => a.streamIdx < b.streamIdx)) :
    (allSubs existing files).Pairwise posLt := by
  rw [allSubs, List.pairwise_append]
  refine ⟨pairwise_existingEntries hinv, pairwise_newEntries 0 _, ?_⟩
  intro a ha b hb
  obtain ⟨s, _, _, rfl⟩ := mem_existingEntries ha
  obtain ⟨_, _, h4, _⟩ := mem_newEntries hb
  exact Or.inl h4

theorem pairwise_mem_cases {α : Type _} {r : α → α → Prop} :
    ∀ {l : List α}, l.Pairwise r → ∀ {a b : α}, a ∈ l → b ∈ l → a = b ∨ r a b ∨ r b a := by
  intro l hl
  induction hl with
  | nil => intro a b ha _; cases ha
  | cons hx _ ih =>
    intro a b ha hb
    rcases List.mem_cons.1 ha with h1 | h1 <;> rcases List.mem_cons.1 hb with h2 | h2
    · exact Or.inl (h1.trans h2.symm)
    · exact Or.inr (Or.inl (h1 ▸ hx b h2))
    · exact Or.inr (Or.inr (h2 ▸ hx a h1))
    · exact ih h1 h2

theorem eq_of_perm_of_sorted_antisymmOn {α : Type _} {r : α → α → Prop} :
    ∀ {l₁ l₂ : List α}, l₁.Perm l₂ → l₁.Pairwise r → l₂.Pairwise r →
      (∀ a ∈ l₁, ∀ b ∈ l₁, r a b → r b a → a = b) → l₁ = l₂ := by
  intro l₁
  induction l₁ with
  | nil => intro l₂ hp _ _ _; exact hp.nil_eq
  | cons a t₁ ih =>
    intro l₂ hp hs₁ hs₂ hanti
    cases l₂ with
    | nil => exact absurd hp.symm.nil_eq (by simp)
    | cons b t₂ =>
      have hab : a = b := by
        by_contra hne
        have ha2 : a ∈ b :: t₂ := hp.subset (List.mem_cons_self _ _)
        have hb1 : b ∈ a :: t₁ := hp.symm.subset (List.mem_cons_self _ _)
        have ha2' : a ∈ t₂ := by
          rcases List.mem_cons.1 ha2 with h | h
          · exact absurd h hne
          · exact h
        have hb1' : b ∈ t₁ := by
          rcases List.mem_cons.1 hb1 with h | h
          · exact absurd h.symm hne
          · exact h
        have hr1 : r a b := (List.pairwise_cons.1 hs₁).1 b hb1'
        have hr2 : r b a := (List.pairwise_cons.1 hs₂).1 a ha2'
        exact hne (hanti a (List.mem_cons_self _ _) b hb1 hr1 hr2)
      subst hab
      have hpt : t₁.Perm t₂ := hp.cons_inv
      have ht : t₁ = t₂ := by
        refine ih hpt (List.pairwise_cons.1 hs₁).2 (List.pairwise_cons.1 hs₂).2 ?_
        intro x hx y hy
        exact hanti x (List.mem_cons_of_mem _ hx) y (List.mem_cons_of_mem _ hy)
      rw [ht]

theorem sortKey_fst_of_spa {a : SubEntry} (h : isSpa a = true) : (sortKey a).1 = 0 := by
  simp only [isSpa, decide_eq_true_eq] at h
  simp [sortKey, h]

theorem sortKey_fst_of_not_spa {a : SubEntry} (h : isSpa a = false) : (sortKey a).1 = 1 := by
  simp only [isSpa, decide_eq_false_iff_not] at h
  simp [sortKey, h]

theorem subLe_of_posLt_of_fst_eq {a b : SubEntry} (h : posLt a b)
    (hf : (sortKey a).1 = (sortKey b).1) : subLe a b := by
  unfold subLe keyLe
  rcases h with h | ⟨h1, h2⟩
  · exact Or.inr ⟨hf, Or.inl h⟩
  · exact Or.inr ⟨hf, Or.inr ⟨h1, Nat.le_of_lt h2⟩⟩

theorem subLe_of_rank_lt {a b : SubEntry} (ha : isSpa a = true) (hb : isSpa b = false) :
    subLe a b := by
  unfold subLe keyLe
  exact Or.inl (by rw [sortKey_fst_of_spa ha, sortKey_fst_of_not_spa hb]; omega)

theorem allSubs_antisymm {existing : List EmbeddedSub} {files : SubFiles}
    (hinv : existing.Pairwise (fun a b => a.streamIdx < b.streamIdx)) :
    ∀ a ∈ allSubs existing files, ∀ b ∈ allSubs existing files,
      subLe a b → subLe b a → a = b := by
  intro a ha b hb h1 h2
  have hk : sortKey a = sortKey b := keyLe_antisymm h1 h2
  have hpos : a.inputIdx = b.inputIdx ∧ a.streamIdx = b.streamIdx := by
    have h3 := congrArg (fun p => p.2.1) hk
    have h4 := congrArg (fun p => p.2.2) hk
    exact ⟨h3, h4⟩
  obtain ⟨h5, h6⟩ := hpos
  rcases pairwise_mem_cases (pairwise_allSubs hinv) ha hb with h | h | h
  · exact h
  · exfalso; rcases h with h | ⟨_, h⟩ <;> omega
  · exfalso; rcases h with h | ⟨_, h⟩ <;> omega

/-- The effect of line 375's stable sort by `sort_key`: since the
`all_subs` insertion positions are strictly increasing, sorting moves
the Spanish entries (in insertion order) to the front, followed by all
other entries in insertion order. -/
theorem sortedSubs_eq_partition (existing : List EmbeddedSub) (files : SubFiles)
    (hinv : existing.Pairwise (fun a b => a.streamIdx < b.streamIdx)) :
    sortedSubs existing files =
      (allSubs existing files).filter isSpa
        ++ (allSubs existing files).filter (fun e => !isSpa e) := by
  refine eq_of_perm_of_sorted_antisymmOn
    ((perm_sortedSubs existing files).trans (List.filter_append_perm isSpa _).symm)
    (sorted_sortedSubs existing files) ?_ ?_
  · rw [List.pairwise_append]
    refine ⟨?_, ?_, ?_⟩
    · refine List.Pairwise.imp_of_mem ?_ (((pairwise_allSubs hinv).filter isSpa))
      intro a b ha hb hr
      exact subLe_of_posLt_of_fst_eq hr
        (by rw [sortKey_fst_of_spa (List.mem_filter.1 ha).2,
                sortKey_fst_of_spa (List.mem_filter.1 hb).2])
    · refine List.Pairwise.imp_of_mem ?_ (((pairwise_allSubs hinv).filter _))
      intro a b ha hb hr
      have ha' : isSpa a = false := by
        have := (List.mem_filter.1 ha).2; simpa using this
      have hb' : isSpa b = false := by
        have := (List.mem_filter.1 hb).2; simpa using this
      exact subLe_of_posLt_of_fst_eq hr
        (by rw [sortKey_fst_of_not_spa ha', sortKey_fst_of_not_spa hb'])
    · intro a ha b hb
      have ha' : isSpa a = true := (List.mem_filter.1 ha).2
      have hb' : isSpa b = false := by
        have := (List.mem_filter.1 hb).2; simpa using this
      exact subLe_of_rank_lt ha' hb'
  · intro a ha b hb
    exact allSubs_antisymm hinv a ((perm_sortedSubs existing files).subset ha)
      b ((perm_sortedSubs existing files).subset hb)

theorem embedPlan_cases (existing : List EmbeddedSub) (files : SubFiles) (suffix : String) :
    embedPlan existing files suffix = { isNoOp := true, slots := [] } ∨
      embedPlan existing files suffix =
        { isNoOp := false,
          slots := (sortedSubs existing files).map (toSlot (newSubCodec suffix)) } := by
  unfold embedPlan
  split_ifs <;> simp

theorem embedPlan_of_slots_ne_nil {existing : List EmbeddedSub} {files : SubFiles}
    {suffix : String} (h : (embedPlan existing files suffix).slots ≠ []) :
    embedPlan existing files suffix =
      { isNoOp := false,
        slots := (sortedSubs existing files).map (toSlot (newSubCodec suffix)) } := by
  rcases embedPlan_cases existing files suffix with h1 | h1
  · rw [h1] at h; simp at h
  · exact h1

theorem embedPlan_of_not_noOp {existing : List EmbeddedSub} {files : SubFiles}
    {suffix : String} (h : (embedPlan existing files suffix).isNoOp = false) :
    (embedPlan existing files suffix).slots =
      (sortedSubs existing files).map (toSlot (newSubCodec suffix)) := by
  rcases embedPlan_cases existing files suffix with h1 | h1
  · rw [h1] at h; simp at h
  · rw [h1]

theorem mem_allSubs_cases {existing : List EmbeddedSub} {files : SubFiles} {x : SubEntry}
    (hx : x ∈ allSubs existing files) :
    (∃ s ∈ existing, pyLower s.language ∉ fileKeys files
        ∧ x = ⟨0, s.streamIdx, pyLower s.language, false⟩)
      ∨ (x.isNew = true ∧ x.streamIdx = 0 ∧ 0 < x.inputIdx
        ∧ x.lang ∈ (subInputs files).map Prod.fst) := by
  rcases List.mem_append.1 hx with h | h
  · exact Or.inl (mem_existingEntries h)
  · exact Or.inr (mem_newEntries h)

theorem length_newEntries : ∀ (i : Nat) (l : SubFiles), (newEntries i l).length = l.length := by
  intro i l
  induction l generalizing i with
  | nil => rfl
  | cons f rest ih => rw [newEntries, List.length_cons, ih, List.length_cons]

/-- C3: if `newSources` is empty and the existing list is empty or starts
with the preferred language, the planner returns `isNoOp = true` with an
empty slot list (lines 320-328: plain `shutil.copy2`, no remux). -/
theorem spec_c3_noop_detection (existing : List EmbeddedSub) (suffix : String)
    (h : existing = [] ∨ ∃ s rest, existing = s :: rest ∧ pyLower s.language = "spa") :
    embedPlan existing [] suffix = { isNoOp := true, slots := [] } := by
  rcases h with h | ⟨s, rest, h, hs⟩
  · subst h; rfl
  · subst h
    unfold embedPlan
    have h2 : spanishIsFirst (s :: rest) = true := by
      unfold spanishIsFirst; simp [hs]
    simp [h2]

/-- Witness for C3 at Scenario B: one existing Spanish stream, no new
sources. -/
theorem spec_c3_noop_detection_witness :
    ((⟨some 2, 0, "spa"⟩ : EmbeddedSub) :: [] = [] ∨
      ∃ s rest, (⟨some 2, 0, "spa"⟩ : EmbeddedSub) :: [] = s :: rest
        ∧ pyLower s.language = "spa")
    ∧ embedPlan [⟨some 2, 0, "spa"⟩] [] ".mkv" = { isNoOp := true, slots := [] } :=
  ⟨Or.inr ⟨⟨some 2, 0, "spa"⟩, [], rfl, by decide⟩,
    spec_c3_noop_detection _ _ (Or.inr ⟨⟨some 2, 0, "spa"⟩, [], rfl, by decide⟩)⟩

/-- C6 counterexample: when the probe prints malformed data,
`get_embedded_subtitles` does not return an empty list — the
`json.loads` exception is not caught by the `except
subprocess.CalledProcessError` clause and propagates (and the same for
a probe that could not be started at all). -/
theorem spec_c6_counterexample :
    get_embedded_subtitles ProbeOutcome.malformedOutput ≠ Except.ok []
    ∧ get_embedded_subtitles ProbeOutcome.malformedOutput
        = Except.error PyError.jsonDecodeError
    ∧ get_embedded_subtitles ProbeOutcome.startFailure = Except.error PyError.osError := by
  refine ⟨?_, rfl, rfl⟩
  intro h
  cases h

/-- C6 (amended): only a probe that runs and exits with non-zero status
(`CalledProcessError`) is swallowed and reported as zero existing
subtitle streams; a probe that cannot start or that returns malformed
data propagates an exception instead. -/
theorem spec_c6_amended :
    get_embedded_subtitles ProbeOutcome.nonzeroExit = Except.ok []
    ∧ (∀ p : ProbeOutcome, get_embedded_subtitles p = Except.ok []
        → p = ProbeOutcome.nonzeroExit ∨ ∃ raw, p = ProbeOutcome.streams raw) := by
  refine ⟨rfl, ?_⟩
  intro p hp
  cases p with
  | startFailure => cases hp
  | nonzeroExit => exact Or.inl rfl
  | malformedOutput => cases hp
  | streams raw => exact Or.inr ⟨raw, rfl⟩

/-- C7: an empty candidate set after the supersession filter resolves to
`isNoOp = true` (line 377-379), not an error and not an empty remux. -/
theorem spec_c7_degenerate_noop (existing : List EmbeddedSub) (files : SubFiles)
    (suffix : String) (h : allSubs existing files = []) :
    (embedPlan existing files suffix).isNoOp = true := by
  unfold embedPlan
  split_ifs with h1 h2 h3
  · rfl
  · rfl
  · rfl
  · exfalso
    apply h3
    rw [sortedSubs, h]
    rfl

/-- Witness for C7: the only existing stream is superseded by a new
source whose file is missing, so the candidate set is empty. -/
theorem spec_c7_degenerate_noop_witness :
    allSubs [⟨some 0, 0, "eng"⟩] [("eng", ⟨"x.eng.srt", false⟩)] = []
    ∧ (embedPlan [⟨some 0, 0, "eng"⟩] [("eng", ⟨"x.eng.srt", false⟩)] ".mkv").isNoOp
        = true :=
  ⟨by decide, spec_c7_degenerate_noop _ _ _ (by decide)⟩

/-- C8: the built remux command maps the video and all audio streams of
input 0 and stream-copies them (`-map 0:v -map 0:a?`, `-c:v copy -c:a
copy`, lines 349-350 and 390-391), writes its output to the final
command argument, and the caller's output path (the target directory)
always differs from the source path (the `Originals` subfolder), so the
source is never rewritten in place. -/
theorem spec_c8_frame_effect (videoPath outputPath : String) (existing : List EmbeddedSub)
    (files : SubFiles) (suffix : String) (target : List String) (name : String) :
    (∃ pre post, buildCmd videoPath outputPath existing files suffix
        = pre ++ ["-map", "0:v", "-map", "0:a?"] ++ post)
    ∧ (∃ pre post, buildCmd videoPath outputPath existing files suffix
        = pre ++ ["-c:v", "copy", "-c:a", "copy"] ++ post)
    ∧ (buildCmd videoPath outputPath existing files suffix).getLast? = some outputPath
    ∧ originalsPath target name ≠ outputVideoPath target name := by
  refine ⟨?_, ?_, ?_, ?_⟩
  · refine ⟨["ffmpeg", "-y", "-i", videoPath] ++ subInputArgs files,
      mapArgs (sortedSubs existing files) ++ ["-c:v", "copy", "-c:a", "copy"]
        ++ codecMetadataArgs (newSubCodec suffix) (sortedSubs existing files)
        ++ [outputPath], ?_⟩
    simp [buildCmd, List.append_assoc]
  · refine ⟨["ffmpeg", "-y", "-i", videoPath] ++ subInputArgs files
        ++ ["-map", "0:v", "-map", "0:a?"] ++ mapArgs (sortedSubs existing files),
      codecMetadataArgs (newSubCodec suffix) (sortedSubs existing files)
        ++ [outputPath], ?_⟩
    simp [buildCmd, List.append_assoc]
  · exact List.getLast?_concat _
  · intro h
    have hlen := congrArg List.length h
    simp [originalsPath, outputVideoPath] at hlen

/-- C9: the planner is a pure function of (inventory, new sources,
container suffix): two runs on equal inputs produce equal plans and
equal remux commands. -/
theorem spec_c9_deterministic (e₁ e₂ : List EmbeddedSub) (f₁ f₂ : SubFiles)
    (s₁ s₂ v₁ v₂ o₁ o₂ : String)
    (he : e₁ = e₂) (hf : f₁ = f₂) (hs : s₁ = s₂) (hv : v₁ = v₂) (ho : o₁ = o₂) :
    embedPlan e₁ f₁ s₁ = embedPlan e₂ f₂ s₂
    ∧ buildCmd v₁ o₁ e₁ f₁ s₁ = buildCmd v₂ o₂ e₂ f₂ s₂ := by
  rw [he, hf, hs, hv, ho]
  exact ⟨rfl, rfl⟩

/-- Witness for C9 at a concrete input. -/
theorem spec_c9_deterministic_witness :
    embedPlan [⟨some 2, 0, "eng"⟩] [("spa", ⟨"f.spa.srt", true⟩)] ".mkv"
      = embedPlan [⟨some 2, 0, "eng"⟩] [("spa", ⟨"f.spa.srt", true⟩)] ".mkv"
    ∧ buildCmd "a.mkv" "b.mkv" [⟨some 2, 0, "eng"⟩] [("spa", ⟨"f.spa.srt", true⟩)] ".mkv"
      = buildCmd "a.mkv" "b.mkv" [⟨some 2, 0, "eng"⟩] [("spa", ⟨"f.spa.srt", true⟩)] ".mkv" :=
  spec_c9_deterministic _ _ _ _ _ _ _ _ _ _ rfl rfl rfl rfl rfl

theorem countP_newEntries_toSlot (c L : String) : ∀ (i : Nat) (l : SubFiles),
    (newEntries i l).countP
        (fun e => decide ((toSlot c e).lang = L) && isNewOrigin (toSlot c e))
      = l.countP (fun f => decide (f.1 = L)) := by
  intro i l
  induction l generalizing i with
  | nil => rfl
  | cons f rest ih =>
    rw [newEntries, List.countP_cons, List.countP_cons, ih]
    congr 1
    simp [toSlot, isNewOrigin]

theorem countP_existingEntries_zero (c L : String) {keys : List String}
    {l : List EmbeddedSub} :
    (existingEntries keys l).countP
        (fun e => decide ((toSlot c e).lang = L) && isNewOrigin (toSlot c e)) = 0 := by
  rw [List.countP_eq_zero]
  intro e he
  obtain ⟨s, _, _, rfl⟩ := mem_existingEntries he
  simp [toSlot, isNewOrigin]

theorem countP_assoc_keys {files : SubFiles} {L : String}
    (hnd : (fileKeys files).Nodup) (hL : L ∈ fileKeys files) :
    files.countP (fun f => decide (f.1 = L)) = 1 := by
  induction files with
  | nil => simp [fileKeys] at hL
  | cons f rest ih =>
    rw [fileKeys, List.map_cons, List.nodup_cons] at hnd
    rw [fileKeys, List.map_cons, List.mem_cons] at hL
    rw [List.countP_cons]
    by_cases hf : f.1 = L
    · have h0 : rest.countP (fun g => decide (g.1 = L)) = 0 := by
        rw [List.countP_eq_zero]
        intro g hg hgl
        rw [decide_eq_true_eq] at hgl
        exact hnd.1 (by rw [hf, ← hgl]; exact List.mem_map_of_mem Prod.fst hg)
      rw [h0]
      simp [hf]
    · rcases hL with h | h
      · exact absurd h.symm hf
      · rw [ih hnd.2 h]
        simp [hf]

theorem assoc_nodup_eq : ∀ {files : SubFiles} {L : String} {a b : SubFile},
    (fileKeys files).Nodup → (L, a) ∈ files → (L, b) ∈ files → a = b := by
  intro files
  induction files with
  | nil => intro L a b _ ha; cases ha
  | cons f rest ih =>
    intro L a b hnd ha hb
    rw [fileKeys, List.map_cons, List.nodup_cons] at hnd
    rcases List.mem_cons.1 ha with h1 | h1 <;> rcases List.mem_cons.1 hb with h2 | h2
    · have h3 := h1.trans h2.symm
      simpa using h3
    · exfalso
      apply hnd.1
      rw [← h1]
      simpa using List.mem_map_of_mem Prod.fst h2
    · exfalso
      apply hnd.1
      rw [← h2]
      simpa using List.mem_map_of_mem Prod.fst h1
    · exact ih hnd.2 h1 h2

/-- The planner takes the remux branch whenever the `subtitle_files`
dict is non-empty and every declared file exists. -/
theorem embedPlan_slots_of_keys (existing : List EmbeddedSub) {files : SubFiles}
    (suffix : String) (hfe : files ≠ [])
    (hexist : ∀ f ∈ files, f.2.onDisk = true) :
    (embedPlan existing files suffix).slots
      = (sortedSubs existing files).map (toSlot (newSubCodec suffix)) := by
  have hsub : subInputs files = files := List.filter_eq_self.2 (fun f hf => hexist f hf)
  apply embedPlan_of_not_noOp
  unfold embedPlan
  split_ifs with h1 h2 h3
  · exfalso
    rw [Bool.and_eq_true, List.isEmpty_iff, List.isEmpty_iff] at h1
    exact hfe h1.1
  · exfalso
    rw [Bool.and_eq_true, List.isEmpty_iff] at h2
    exact hfe h2.1
  · exfalso
    rw [List.isEmpty_iff] at h3
    have hlen := congrArg List.length h3
    rw [sortedSubs, List.length_insertionSort, allSubs, List.length_append,
      length_newEntries, hsub, List.length_nil] at hlen
    have : files.length = 0 := by omega
    exact hfe (List.length_eq_zero.1 this)
  · rfl

/-- C2: a language that is a key of `newSources` never survives as an
`Existing` slot (the filter of line 360 drops it), and — when its file
exists and dict keys are unique — contributes exactly one `New` slot. -/
theorem spec_c2_supersession (existing : List EmbeddedSub) (files : SubFiles)
    (suffix : String) (L : String)
    (hnd : (fileKeys files).Nodup)
    (hexist : ∀ f ∈ files, f.2.onDisk = true)
    (hL : L ∈ fileKeys files) :
    (∀ s ∈ (embedPlan existing files suffix).slots,
        ∀ i, s.origin = Origin.Existing i → s.lang ≠ L)
    ∧ (embedPlan existing files suffix).slots.countP
        (fun s => decide (s.lang = L) && isNewOrigin s) = 1 := by
  have hsub : subInputs files = files := List.filter_eq_self.2 (fun f hf => hexist f hf)
  have hfe : files ≠ [] := by
    intro h
    rw [h] at hL
    simp [fileKeys] at hL
  have hslots := embedPlan_slots_of_keys existing suffix hfe hexist
  constructor
  · intro s hs i hor
    rw [hslots] at hs
    obtain ⟨e, he, rfl⟩ := List.mem_map.1 hs
    have heA := (perm_sortedSubs existing files).subset he
    rcases mem_allSubs_cases heA with ⟨t, _, hk, rfl⟩ | ⟨_, _, hpos, _⟩
    · intro hlang
      simp only [toSlot] at hlang
      exact hk (hlang ▸ hL)
    · exfalso
      have h0 : e.inputIdx ≠ 0 := by omega
      simp [toSlot, h0] at hor
  · rw [hslots, List.countP_map]
    rw [List.Perm.countP_eq _ (perm_sortedSubs existing files)]
    rw [allSubs, List.countP_append]
    simp only [Function.comp_def]
    rw [countP_existingEntries_zero, countP_newEntries_toSlot, hsub,
      countP_assoc_keys hnd hL]

/-- C10: a declared new source whose file is missing contributes no
`-i` input (line 345's existence check) but its dict key still filters
out every existing stream of that language (line 360 consults the full
dict), so the plan has no slot at all for that language. -/
theorem spec_c10_missing_source (existing : List EmbeddedSub) (files : SubFiles)
    (suffix : String) (L : String) (sf : SubFile)
    (hnd : (fileKeys files).Nodup)
    (hmem : (L, sf) ∈ files)
    (hmiss : sf.onDisk = false) :
    L ∉ fileKeys (subInputs files)
    ∧ ∀ s ∈ (embedPlan existing files suffix).slots, s.lang ≠ L := by
  have hLkeys : L ∈ fileKeys files := List.mem_map_of_mem Prod.fst hmem
  have hnotin : L ∉ fileKeys (subInputs files) := by
    intro h
    obtain ⟨g, hg, hgL⟩ := List.mem_map.1 h
    have hgf : g ∈ files := List.mem_of_mem_filter hg
    have hgd : g.2.onDisk = true := by
      have := (List.mem_filter.1 hg).2
      simpa using this
    have hg2 : (L, g.2) ∈ files := by
      rw [← hgL]
      exact hgf
    have heq : sf = g.2 := assoc_nodup_eq hnd hmem hg2
    rw [heq, hgd] at hmiss
    cases hmiss
  refine ⟨hnotin, ?_⟩
  intro s hs
  rcases embedPlan_cases existing files suffix with hpl | hpl
  · rw [hpl] at hs
    exact absurd hs (List.not_mem_nil s)
  · rw [hpl] at hs
    obtain ⟨e, he, rfl⟩ := List.mem_map.1 hs
    have heA := (perm_sortedSubs existing files).subset he
    rcases mem_allSubs_cases heA with ⟨t, _, hk, rfl⟩ | ⟨_, _, _, hlang⟩
    · intro h
      simp only [toSlot] at h
      exact hk (h ▸ hLkeys)
    · intro h
      apply hnotin
      have hsl : (toSlot (newSubCodec suffix) e).lang = e.lang := rfl
      rw [hsl] at h
      exact h ▸ hlang

/-- C4: slots fed from a new source are encoded — to `mov_text` for an
`.mp4` container and to `srt` for `.mkv` or anything else (lines
330-337, 397) — while slots fed from an existing stream are always
stream-copied (line 400), whatever the container. -/
theorem spec_c4_codec_mapping (existing : List EmbeddedSub) (files : SubFiles)
    (suffix : String) :
    ∀ s ∈ (embedPlan existing files suffix).slots,
      (pyLower suffix = ".mp4" →
        ∀ i, s.origin = Origin.New i → s.codec = CodecAction.EncodeTo "mov_text")
      ∧ (pyLower suffix ≠ ".mp4" →
        ∀ i, s.origin = Origin.New i → s.codec = CodecAction.EncodeTo "srt")
      ∧ (∀ i, s.origin = Origin.Existing i → s.codec = CodecAction.CopyAsIs) := by
  intro s hs
  rcases embedPlan_cases existing files suffix with hpl | hpl
  · rw [hpl] at hs
    exact absurd hs (List.not_mem_nil s)
  · rw [hpl] at hs
    obtain ⟨e, he, rfl⟩ := List.mem_map.1 hs
    have heA := (perm_sortedSubs existing files).subset he
    rcases mem_allSubs_cases heA with ⟨t, _, _, rfl⟩ | ⟨hnew, _, hpos, _⟩
    · refine ⟨?_, ?_, ?_⟩
      · intro _ i hi
        exfalso
        simp [toSlot] at hi
      · intro _ i hi
        exfalso
        simp [toSlot] at hi
      · intro i _
        simp [toSlot]
    · have h0 : e.inputIdx ≠ 0 := by omega
      refine ⟨?_, ?_, ?_⟩
      · intro hmp4 i _
        simp [toSlot, hnew, newSubCodec, hmp4]
      · intro hnot i _
        simp [toSlot, hnew, newSubCodec, hnot]
      · intro i hi
        exfalso
        simp [toSlot, h0] at hi

/-- C5: in a non-no-op plan the preferred partition comes first and,
within each partition, surviving existing descriptors keep their
container order and are followed by the new sources in supplied
order. -/
theorem spec_c5_order_preservation (existing : List EmbeddedSub) (files : SubFiles)
    (suffix : String)
    (hinv : existing.Pairwise (fun a b => a.streamIdx < b.streamIdx))
    (hno : (embedPlan existing files suffix).isNoOp = false) :
    (embedPlan existing files suffix).slots =
      (((existingEntries (fileKeys files) existing).filter isSpa
          ++ (newEntries 0 (subInputs files)).filter isSpa).map (toSlot (newSubCodec suffix)))
        ++ (((existingEntries (fileKeys files) existing).filter (fun e => !isSpa e)
          ++ (newEntries 0 (subInputs files)).filter (fun e => !isSpa e)).map
            (toSlot (newSubCodec suffix))) := by
  rw [embedPlan_of_not_noOp hno, sortedSubs_eq_partition existing files hinv, allSubs,
    List.filter_append, List.filter_append, List.map_append]

/-- C1: in a non-empty plan, slot 0 carries the preferred language
whenever that language survives among the filtered existing streams or
is a key of the new sources (whose files exist); if the preferred
language is absent from both, slot 0 is the insertion-order head of the
candidate list. -/
theorem spec_c1_preferred_first (existing : List EmbeddedSub) (files : SubFiles)
    (suffix : String)
    (hinv : existing.Pairwise (fun a b => a.streamIdx < b.streamIdx))
    (hexist : ∀ f ∈ files, f.2.onDisk = true)
    (hne : (embedPlan existing files suffix).slots ≠ []) :
    (((∃ s ∈ existing, pyLower s.language = "spa" ∧ pyLower s.language ∉ fileKeys files)
        ∨ "spa" ∈ fileKeys files) →
      ∃ t rest, (embedPlan existing files suffix).slots = t :: rest ∧ t.lang = "spa")
    ∧ (¬ ((∃ s ∈ existing, pyLower s.language = "spa" ∧ pyLower s.language ∉ fileKeys files)
        ∨ "spa" ∈ fileKeys files) →
      (embedPlan existing files suffix).slots.head?
        = ((allSubs existing files).map (toSlot (newSubCodec suffix))).head?) := by
  have hplan := embedPlan_of_slots_ne_nil hne
  have hslots : (embedPlan existing files suffix).slots
      = (sortedSubs existing files).map (toSlot (newSubCodec suffix)) := by
    rw [hplan]
  have hsub : subInputs files = files := List.filter_eq_self.2 (fun f hf => hexist f hf)
  constructor
  · intro hpres
    have hex : ∃ x ∈ allSubs existing files, isSpa x = true := by
      rcases hpres with ⟨s, hsmem, hslang, hk⟩ | hkeys
      · exact ⟨⟨0, s.streamIdx, pyLower s.language, false⟩,
          List.mem_append_left _ (existingEntries_mem hsmem hk),
          by simp [isSpa, hslang]⟩
      · have hsp : "spa" ∈ (subInputs files).map Prod.fst := by
          rw [hsub]
          exact hkeys
        obtain ⟨x, hx, hxl⟩ := newEntries_exists_lang hsp
        exact ⟨x, List.mem_append_right _ hx, by simp [isSpa, hxl]⟩
    obtain ⟨x, hxA, hxs⟩ := hex
    have hfilter : x ∈ (allSubs existing files).filter isSpa := List.mem_filter.2 ⟨hxA, hxs⟩
    cases hfs : (allSubs existing files).filter isSpa with
    | nil =>
      rw [hfs] at hfilter
      cases hfilter
    | cons y ys =>
      have hsorted := sortedSubs_eq_partition existing files hinv
      rw [hfs, List.cons_append] at hsorted
      have hy : isSpa y = true := by
        have hmem : y ∈ (allSubs existing files).filter isSpa := by
          rw [hfs]
          exact List.mem_cons_self y _
        exact (List.mem_filter.1 hmem).2
      refine ⟨toSlot (newSubCodec suffix) y,
        ((ys ++ (allSubs existing files).filter (fun e => !isSpa e)).map
          (toSlot (newSubCodec suffix))), ?_, ?_⟩
      · rw [hslots, hsorted, List.map_cons]
      · simp only [isSpa, decide_eq_true_eq] at hy
        simp [toSlot, hy]
  · intro habs
    have hall : ∀ x ∈ allSubs existing files, isSpa x = false := by
      intro x hx
      rcases mem_allSubs_cases hx with ⟨t, htmem, hk, rfl⟩ | ⟨_, _, _, hlang⟩
      · by_contra hc
        rw [Bool.not_eq_false] at hc
        apply habs
        left
        refine ⟨t, htmem, ?_, hk⟩
        simpa [isSpa] using hc
      · by_contra hc
        rw [Bool.not_eq_false] at hc
        apply habs
        right
        have hL : x.lang = "spa" := by simpa [isSpa] using hc
        rw [hsub] at hlang
        exact hL ▸ hlang
    have hfilter1 : (allSubs existing files).filter isSpa = [] := by
      rw [List.filter_eq_nil_iff]
      intro a ha
      rw [hall a ha]
      simp
    have hfilter2 : (allSubs existing files).filter (fun e => !isSpa e)
        = allSubs existing files := by
      rw [List.filter_eq_self]
      intro a ha
      rw [hall a ha]
      rfl
    rw [hslots, sortedSubs_eq_partition existing files hinv, hfilter1, hfilter2,
      List.nil_append]

/-- Witness for C1 at Scenario A: preferred language arrives as a new
source, so it takes slot 0 ahead of the existing English stream. -/
theorem spec_c1_preferred_first_witness :
    ∃ t rest,
      (embedPlan [⟨some 2, 0, "eng"⟩] [("spa", ⟨"f.spa.srt", true⟩)] ".mp4").slots
        = t :: rest ∧ t.lang = "spa" :=
  (spec_c1_preferred_first [⟨some 2, 0, "eng"⟩] [("spa", ⟨"f.spa.srt", true⟩)] ".mp4"
      (by decide) (by decide) (by decide)).1 (Or.inr (by decide))

/-- Witness for C2: a new Spanish source supersedes the embedded Spanish
stream and contributes exactly one `New` slot. -/
theorem spec_c2_supersession_witness :
    (fileKeys [("spa", ⟨"f.spa.srt", true⟩)]).Nodup
    ∧ (∀ s ∈ (embedPlan [⟨some 2, 0, "spa"⟩, ⟨some 3, 1, "eng"⟩]
          [("spa", ⟨"f.spa.srt", true⟩)] ".mp4").slots,
        ∀ i, s.origin = Origin.Existing i → s.lang ≠ "spa")
    ∧ (embedPlan [⟨some 2, 0, "spa"⟩, ⟨some 3, 1, "eng"⟩]
          [("spa", ⟨"f.spa.srt", true⟩)] ".mp4").slots.countP
        (fun s => decide (s.lang = "spa") && isNewOrigin s) = 1 :=
  ⟨by decide,
    (spec_c2_supersession [⟨some 2, 0, "spa"⟩, ⟨some 3, 1, "eng"⟩]
      [("spa", ⟨"f.spa.srt", true⟩)] ".mp4" "spa"
      (by decide) (by decide) (by decide)).1,
    (spec_c2_supersession [⟨some 2, 0, "spa"⟩, ⟨some 3, 1, "eng"⟩]
      [("spa", ⟨"f.spa.srt", true⟩)] ".mp4" "spa"
      (by decide) (by decide) (by decide)).2⟩

/-- Witness for C4 on an `.mkv` container: the new Spanish slot of
Scenario A is encoded to `srt`. -/
theorem spec_c4_codec_mapping_witness :
    (⟨Origin.New 1, "spa", CodecAction.EncodeTo "srt"⟩ : Slot)
        ∈ (embedPlan [⟨some 2, 0, "eng"⟩] [("spa", ⟨"f.spa.srt", true⟩)] ".mkv").slots
    ∧ ((pyLower ".mkv" = ".mp4" →
        ∀ i, (⟨Origin.New 1, "spa", CodecAction.EncodeTo "srt"⟩ : Slot).origin
            = Origin.New i →
          (⟨Origin.New 1, "spa", CodecAction.EncodeTo "srt"⟩ : Slot).codec
            = CodecAction.EncodeTo "mov_text")
      ∧ (pyLower ".mkv" ≠ ".mp4" →
        ∀ i, (⟨Origin.New 1, "spa", CodecAction.EncodeTo "srt"⟩ : Slot).origin
            = Origin.New i →
          (⟨Origin.New 1, "spa", CodecAction.EncodeTo "srt"⟩ : Slot).codec
            = CodecAction.EncodeTo "srt")
      ∧ (∀ i, (⟨Origin.New 1, "spa", CodecAction.EncodeTo "srt"⟩ : Slot).origin
            = Origin.Existing i →
          (⟨Origin.New 1, "spa", CodecAction.EncodeTo "srt"⟩ : Slot).codec
            = CodecAction.CopyAsIs)) :=
  ⟨by decide,
    spec_c4_codec_mapping [⟨some 2, 0, "eng"⟩] [("spa", ⟨"f.spa.srt", true⟩)] ".mkv"
      ⟨Origin.New 1, "spa", CodecAction.EncodeTo "srt"⟩ (by decide)⟩

/-- Witness for C5 at Scenario C: the non-preferred English stream keeps
its container position behind the moved Spanish stream. -/
theorem spec_c5_order_preservation_witness :
    (embedPlan [⟨some 2, 0, "eng"⟩, ⟨some 3, 1, "spa"⟩] [] ".mkv").slots =
      (((existingEntries (fileKeys []) [⟨some 2, 0, "eng"⟩, ⟨some 3, 1, "spa"⟩]).filter isSpa
          ++ (newEntries 0 (subInputs [])).filter isSpa).map (toSlot (newSubCodec ".mkv")))
        ++ (((existingEntries (fileKeys [])
              [⟨some 2, 0, "eng"⟩, ⟨some 3, 1, "spa"⟩]).filter (fun e => !isSpa e)
          ++ (newEntries 0 (subInputs [])).filter (fun e => !isSpa e)).map
            (toSlot (newSubCodec ".mkv"))) :=
  spec_c5_order_preservation [⟨some 2, 0, "eng"⟩, ⟨some 3, 1, "spa"⟩] [] ".mkv"
    (by decide) (by decide)

/-- Witness for C6 (amended) at the swallowed outcome. -/
theorem spec_c6_amended_witness :
    get_embedded_subtitles ProbeOutcome.nonzeroExit = Except.ok []
    ∧ (ProbeOutcome.nonzeroExit = ProbeOutcome.nonzeroExit
        ∨ ∃ raw, ProbeOutcome.nonzeroExit = ProbeOutcome.streams raw) :=
  ⟨spec_c6_amended.1, spec_c6_amended.2 ProbeOutcome.nonzeroExit rfl⟩

/-- Witness for C8 at a concrete command. -/
theorem spec_c8_frame_effect_witness :
    (∃ pre post, buildCmd "in.mkv" "out.mkv" [⟨some 2, 0, "eng"⟩]
        [("spa", ⟨"f.spa.srt", true⟩)] ".mkv"
        = pre ++ ["-map", "0:v", "-map", "0:a?"] ++ post)
    ∧ (∃ pre post, buildCmd "in.mkv" "out.mkv" [⟨some 2, 0, "eng"⟩]
        [("spa", ⟨"f.spa.srt", true⟩)] ".mkv"
        = pre ++ ["-c:v", "copy", "-c:a", "copy"] ++ post)
    ∧ (buildCmd "in.mkv" "out.mkv" [⟨some 2, 0, "eng"⟩]
        [("spa", ⟨"f.spa.srt", true⟩)] ".mkv").getLast? = some "out.mkv"
    ∧ originalsPath ["Films"] "a.mkv" ≠ outputVideoPath ["Films"] "a.mkv" :=
  spec_c8_frame_effect "in.mkv" "out.mkv" [⟨some 2, 0, "eng"⟩]
    [("spa", ⟨"f.spa.srt", true⟩)] ".mkv" ["Films"] "a.mkv"

/-- Witness for C10: the missing Spanish file removes the Spanish `-i`
input while its key still suppresses the embedded Spanish stream. -/
theorem spec_c10_missing_source_witness :
    "spa" ∉ fileKeys (subInputs [("spa", ⟨"f.spa.srt", false⟩)])
    ∧ ∀ s ∈ (embedPlan [⟨some 2, 0, "spa"⟩, ⟨some 3, 1, "eng"⟩]
        [("spa", ⟨"f.spa.srt", false⟩)] ".mkv").slots, s.lang ≠ "spa" :=
  spec_c10_missing_source [⟨some 2, 0, "spa"⟩, ⟨some 3, 1, "eng"⟩]
    [("spa", ⟨"f.spa.srt", false⟩)] ".mkv" "spa" ⟨"f.spa.srt", false⟩
    (by decide) (by decide) (by decide)

-- Sanity checks on the spec's Scenarios A-D (spec §8).
example :
    embedPlan [⟨some 2, 0, "eng"⟩] [("spa", ⟨"f.spa.srt", true⟩)] ".mkv" =
      { isNoOp := false,
        slots := [⟨.New 1, "spa", .EncodeTo "srt"⟩, ⟨.Existing 0, "eng", .CopyAsIs⟩] } := by
  decide

example : embedPlan [⟨some 2, 0, "spa"⟩] [] ".mkv" = { isNoOp := true, slots := [] } := by
  decide

example :
    embedPlan [⟨some 2, 0, "eng"⟩, ⟨some 3, 1, "spa"⟩] [] ".mkv" =
      { isNoOp := false,
        slots := [⟨.Existing 1, "spa", .CopyAsIs⟩, ⟨.Existing 0, "eng", .CopyAsIs⟩] } := by
  decide

example :
    embedPlan [] [("eng", ⟨"f.eng.srt", true⟩)] ".mp4" =
      { isNoOp := false, slots := [⟨.New 1, "eng", .EncodeTo "mov_text"⟩] } := by
  decide

end Subtitles
